import Mathlib

/-!
Shallow embedding of the Sonic batched multi-proof verifier
(`src/sonic/helped/verifier.rs`) and verification of its specified
properties.

The field of scalars `F` and the group of curve points `G` are kept
abstract (the verifier only uses ring operations on `F`).  The
supporting modules that the verifier imports (`Transcript`, `Batch`,
`SxEval`, and the `Proof`/`SxyAdvice`/`Aggregate` records) are not part
of the verified core's sources; they are modelled from the specification
as free/abstract structures, marked as such below.  The verifier logic
itself (`MultiVerifier::new`, `add_proof`, `add_proof_with_advice`,
`add_aggregate`) is translated statement by statement from the source.
-/

/-- Modelled from the spec: data absorbed into a Fiat–Shamir transcript —
either a group element (`commit_point`) or a field element
(`commit_scalar`). -/
inductive TData (F G : Type) where
| pt (g : G)
| sc (x : F)
deriving DecidableEq

/-- Modelled from the spec: one transcript state transition — an
absorption of committed data, or a challenge draw (the sponge squeeze
that advances the state, so that successive draws differ and a clone
"shares history up to the clone point but diverges afterward"). -/
inductive TEvent (F G : Type) where
| absorb (d : TData F G)
| squeeze
deriving DecidableEq

/-- Modelled from the spec: the transcript is an append-only absorber of
byte-encoded values; its state is the history of absorptions and draws. -/
structure Transcript (F G : Type) where
  history : List (TEvent F G)
deriving DecidableEq

/-- Modelled from the spec: `Transcript::new(&[])`, the fresh empty
transcript each top-level verifier operation starts from. -/
def Transcript.new : Transcript F G := ⟨[]⟩

/-- Modelled from the spec: absorb a group element. -/
def Transcript.commit_point (t : Transcript F G) (g : G) : Transcript F G :=
  ⟨t.history ++ [.absorb (.pt g)]⟩

/-- Modelled from the spec: absorb a field element. -/
def Transcript.commit_scalar (t : Transcript F G) (x : F) : Transcript F G :=
  ⟨t.history ++ [.absorb (.sc x)]⟩

/-- Modelled from the spec: derive the next pseudorandom field element
deterministically from the transcript state; `chal` is the abstract
deterministic derivation function, and the draw advances the state. -/
def Transcript.get_challenge_scalar (t : Transcript F G)
    (chal : List (TEvent F G) → F) : F × Transcript F G :=
  (chal t.history, ⟨t.history ++ [.squeeze]⟩)

/-- Modelled from the spec: the accumulator of deferred pairing-check
claims.  Each `add_*` call is recorded in order; `openings` holds
`(opening proof, coefficient, evaluation point)`, `commitments` the
full-degree commitments with their coefficients, `commitments_max_n`
the bounded-degree (max-n) commitments, and `opening_values` the claimed
values with their coefficients. -/
structure Batch (F G S : Type) where
  srs : S
  n : Nat
  openings : List (G × F × F)
  commitments : List (G × F)
  commitments_max_n : List (G × F)
  opening_values : List (F × F)
deriving DecidableEq

/-- Modelled from the spec: `Batch::new(srs, n)`. -/
def Batch.new (srs : S) (n : Nat) : Batch F G S :=
  ⟨srs, n, [], [], [], []⟩

/-- Modelled from the spec: register opening evidence at an evaluation
point, scaled by a coefficient. -/
def Batch.add_opening (b : Batch F G S) (op : G) (coeff : F) (point : F) :
    Batch F G S :=
  { b with openings := b.openings ++ [(op, coeff, point)] }

/-- Modelled from the spec: register a full-degree commitment scaled by a
coefficient. -/
def Batch.add_commitment (b : Batch F G S) (c : G) (coeff : F) : Batch F G S :=
  { b with commitments := b.commitments ++ [(c, coeff)] }

/-- Modelled from the spec: register a commitment known to be bounded to
degree `n`, scaled by a coefficient. -/
def Batch.add_commitment_max_n (b : Batch F G S) (c : G) (coeff : F) :
    Batch F G S :=
  { b with commitments_max_n := b.commitments_max_n ++ [(c, coeff)] }

/-- Modelled from the spec: register the claimed scalar value for an
opening, scaled by a coefficient. -/
def Batch.add_opening_value (b : Batch F G S) (v : F) (coeff : F) :
    Batch F G S :=
  { b with opening_values := b.opening_values ++ [(v, coeff)] }

/-- Modelled from the spec: `Proof { r, t, rz, rzy, z_opening, zy_opening }`. -/
structure Proof (F G : Type) where
  r : G
  t : G
  rz : F
  rzy : F
  z_opening : G
  zy_opening : G
deriving DecidableEq

/-- Modelled from the spec: `SxyAdvice { s, szy, opening }`. -/
structure SxyAdvice (F G : Type) where
  s : G
  szy : F
  opening : G
deriving DecidableEq

/-- Modelled from the spec: `Aggregate { c, opening, c_openings, s_opening }`;
`c_openings` is the ordered sequence of `(opening proof, field value)`
pairs, one per underlying proof. -/
structure Aggregate (F G : Type) where
  c : G
  opening : G
  c_openings : List (G × F)
  s_opening : G
deriving DecidableEq

/-- Modelled from the spec: the structural events a circuit reports to a
counting `Backend` during one synthesis pass, in discovery order. -/
inductive CEvent where
| k_power (i : Nat)
| mul_gate
| lin_constraint
deriving DecidableEq

/-- Modelled from the spec: the error a circuit's synthesis routine may
report. -/
inductive SynthesisError where
| malformed
deriving DecidableEq

/-- The index carried by a `new_k_power` event, if any. -/
def CEvent.kIdx : CEvent → Option Nat
  | .k_power i => some i
  | _ => none

/-- Whether an event is `new_multiplication_gate`. -/
def CEvent.isMul : CEvent → Bool
  | .mul_gate => true
  | _ => false

/-- Whether an event is `new_linear_constraint`. -/
def CEvent.isLin : CEvent → Bool
  | .lin_constraint => true
  | _ => false

/-- The `MultiVerifier` state: the circuit (represented by its
deterministic synthesis event sequence), the claim accumulator, and the
preprocessing results `k_map`, `n`, `q`. -/
structure MultiVerifier (F G S : Type) where
  circuit : List CEvent
  batch : Batch F G S
  k_map : List Nat
  n : Nat
  q : Nat
deriving DecidableEq

/-- The `Preprocess` backend state of `MultiVerifier::new`. -/
structure Preprocess where
  k_map : List Nat
  n : Nat
  q : Nat
deriving DecidableEq

/-- One `Backend` callback of the counting `Preprocess` backend:
`new_k_power` pushes the index, `new_multiplication_gate` increments `n`,
`new_linear_constraint` increments `q`. -/
def Preprocess.step (p : Preprocess) : CEvent → Preprocess
  | .k_power i => { p with k_map := p.k_map ++ [i] }
  | .mul_gate => { p with n := p.n + 1 }
  | .lin_constraint => { p with q := p.q + 1 }

/-- `MultiVerifier::new`: run one counting synthesis pass (propagating a
synthesis error), then build the verifier with `Batch::new(srs, n)` and
the recorded `k_map`, `n`, `q`. -/
def MultiVerifier.new (circuit : Except SynthesisError (List CEvent))
    (srs : S) : Except SynthesisError (MultiVerifier F G S) :=
  match circuit with
  | .error e => .error e
  | .ok evs =>
    let preprocess := evs.foldl Preprocess.step ⟨[], 0, 0⟩
    .ok ⟨evs, Batch.new srs preprocess.n, preprocess.k_map, preprocess.n,
      preprocess.q⟩

/-- `k(y)` as computed by the loop in `add_proof`: iterate `k_map` zipped
with the constant-one wire followed by the public inputs, accumulating
`y^(exp + n) · input`. -/
def kY [CommRing F] (n : Nat) (k_map : List Nat) (y : F) (inputs : List F) : F :=
  (k_map.zip ((1 : F) :: inputs)).foldl
    (fun acc p => acc + y ^ (p.1 + n) * p.2) 0

/-- `MultiVerifier::add_proof`, with the `z` value handed to the `sxy`
closure returned alongside (the Rust closure captures it by side effect;
`add_proof_with_advice` needs it).  `chal` is the abstract transcript
derivation function and `sEval` the abstract
`SxEval::new(y, n)` / synthesize / `finalize(z)` evaluator
(modelled from the spec, as the evaluator is outside the verified core). -/
def MultiVerifier.add_proof_core [CommRing F] (v : MultiVerifier F G S)
    (chal : List (TEvent F G) → F)
    (sEval : F → Nat → List CEvent → F → F)
    (proof : Proof F G) (inputs : List F)
    (sxy : F → F → Option F) : MultiVerifier F G S × F :=
  let transcript : Transcript F G := Transcript.new
  let transcript := transcript.commit_point proof.r
  let yt := transcript.get_challenge_scalar chal
  let y := yt.1
  let transcript := yt.2.commit_point proof.t
  let zt := transcript.get_challenge_scalar chal
  let z := zt.1
  let transcript := zt.2.commit_scalar proof.rz
  let transcript := transcript.commit_scalar proof.rzy
  let r1t := transcript.get_challenge_scalar chal
  let r1 := r1t.1
  let transcript := r1t.2.commit_point proof.z_opening
  let transcript := transcript.commit_point proof.zy_opening
  let randomt := transcript.get_challenge_scalar chal
  let random := randomt.1
  let zy := z * y
  let b := v.batch.add_opening proof.zy_opening random zy
  let b := b.add_commitment_max_n proof.r random
  let b := b.add_opening_value proof.rzy random
  let ky := kY v.n v.k_map y inputs
  let szy := (sxy z y).getD (sEval y v.n v.circuit z)
  let tzy := (proof.rzy + szy) * proof.rz - ky
  let random2t := randomt.2.get_challenge_scalar chal
  let random2 := random2t.1
  let b := b.add_opening proof.z_opening random2 z
  let b := b.add_opening_value tzy random2
  let b := b.add_commitment proof.t random2
  let random3 := random2 * r1
  let b := b.add_opening_value proof.rz random3
  let b := b.add_commitment_max_n proof.r random3
  ({ v with batch := b }, z)

/-- `MultiVerifier::add_proof` proper (the returned verifier state). -/
def MultiVerifier.add_proof [CommRing F] (v : MultiVerifier F G S)
    (chal : List (TEvent F G) → F)
    (sEval : F → Nat → List CEvent → F → F)
    (proof : Proof F G) (inputs : List F)
    (sxy : F → F → Option F) : MultiVerifier F G S :=
  (v.add_proof_core chal sEval proof inputs sxy).1

/-- `MultiVerifier::add_proof_with_advice`: run `add_proof` with the
closure that always answers `Some(advice.szy)` (capturing the derived
`z`), then open `advice.s` at that `z` under a fresh transcript that
absorbed `advice.opening`, `advice.s`, `advice.szy`. -/
def MultiVerifier.add_proof_with_advice [CommRing F]
    (v : MultiVerifier F G S)
    (chal : List (TEvent F G) → F)
    (sEval : F → Nat → List CEvent → F → F)
    (proof : Proof F G) (inputs : List F)
    (advice : SxyAdvice F G) : MultiVerifier F G S :=
  let vz := v.add_proof_core chal sEval proof inputs (fun _ _ => some advice.szy)
  let v' := vz.1
  let z := vz.2
  let transcript : Transcript F G := Transcript.new
  let transcript := transcript.commit_point advice.opening
  let transcript := transcript.commit_point advice.s
  let transcript := transcript.commit_scalar advice.szy
  let random := (transcript.get_challenge_scalar chal).1
  let b := v'.batch.add_opening advice.opening random z
  let b := b.add_commitment advice.s random
  let b := b.add_opening_value advice.szy random
  { v' with batch := b }

/-- One iteration of the first loop of `add_aggregate`: derive the
proof's own `y` from an isolated sub-transcript seeded with `proof.r`,
and absorb the advice commitment `sxyadvice.s` into the running
transcript. -/
def aggStepY (chal : List (TEvent F G) → F)
    (acc : Transcript F G × List F)
    (pa : Proof F G × SxyAdvice F G) : Transcript F G × List F :=
  let sub : Transcript F G := Transcript.new
  let sub := sub.commit_point pa.1.r
  let y := (sub.get_challenge_scalar chal).1
  (acc.1.commit_point pa.2.s, acc.2 ++ [y])

/-- One iteration of the `c_openings` loop of `add_aggregate`: the
coefficient is drawn from a clone of the running transcript `t` (which
the loop never advances), then the opening at the proof's `y`, the shared
commitment `c`, and the claimed value are registered. -/
def aggStepC (chal : List (TEvent F G) → F) (c : G) (t : Transcript F G)
    (b : Batch F G S) (oy : (G × F) × F) : Batch F G S :=
  let random := (t.get_challenge_scalar chal).1
  let b := b.add_opening oy.1.1 random oy.2
  let b := b.add_commitment c random
  b.add_opening_value oy.1.2 random

/-- One iteration of the final loop of `add_aggregate`: draw the
proof-specific challenge `r` from the running transcript (advancing it),
fold `c_opening`'s value scaled by `r` into the expected value, and
register `advice.s` with coefficient `r · random`. -/
def aggStepS [CommRing F] (chal : List (TEvent F G) → F) (random : F)
    (acc : Transcript F G × F × Batch F G S)
    (pc : (Proof F G × SxyAdvice F G) × (G × F)) :
    Transcript F G × F × Batch F G S :=
  let rt := acc.1.get_challenge_scalar chal
  let r := rt.1
  (rt.2, acc.2.1 + pc.2.2 * r, (acc.2.2).add_commitment pc.1.2.s (r * random))

/-- `MultiVerifier::add_aggregate`. -/
def MultiVerifier.add_aggregate [CommRing F] (v : MultiVerifier F G S)
    (chal : List (TEvent F G) → F)
    (sEval : F → Nat → List CEvent → F → F)
    (proofs : List (Proof F G × SxyAdvice F G))
    (aggregate : Aggregate F G) : MultiVerifier F G S :=
  let start : Transcript F G × List F := (Transcript.new, [])
  let ty := proofs.foldl (aggStepY chal) start
  let transcript := ty.1
  let y_values := ty.2
  let zt := transcript.get_challenge_scalar chal
  let z := zt.1
  let transcript := zt.2.commit_point aggregate.c
  let wt := transcript.get_challenge_scalar chal
  let w := wt.1
  let transcript := wt.2
  let szw := sEval w v.n v.circuit z
  let random1 := (transcript.get_challenge_scalar chal).1
  let b := v.batch.add_opening aggregate.opening random1 w
  let b := b.add_commitment aggregate.c random1
  let b := b.add_opening_value szw random1
  let b := (aggregate.c_openings.zip y_values).foldl
    (aggStepC chal aggregate.c transcript) b
  let random := (transcript.get_challenge_scalar chal).1
  let teb := (proofs.zip aggregate.c_openings).foldl (aggStepS chal random)
    (transcript, 0, b)
  let expected_value := teb.2.1
  let b := teb.2.2
  let b := b.add_opening_value expected_value random
  let b := b.add_opening aggregate.s_opening random z
  { v with batch := b }

/-- Transcript history at the point `y` is derived in `add_proof`: the
fresh transcript has absorbed `proof.r`. -/
def hY (p : Proof F G) : List (TEvent F G) :=
  [.absorb (.pt p.r)]

/-- Transcript history at the point `z` is derived in `add_proof`: after
the `y` draw, `proof.t` has been absorbed. -/
def hZ (p : Proof F G) : List (TEvent F G) :=
  hY p ++ [.squeeze, .absorb (.pt p.t)]

/-- Transcript history at the point `r1` is derived in `add_proof`: after
the `z` draw, `proof.rz` and `proof.rzy` have been absorbed. -/
def hR1 (p : Proof F G) : List (TEvent F G) :=
  hZ p ++ [.squeeze, .absorb (.sc p.rz), .absorb (.sc p.rzy)]

/-- Transcript history at the first `random` draw in `add_proof`: after
the `r1` draw, `proof.z_opening` and `proof.zy_opening` have been
absorbed. -/
def hRnd (p : Proof F G) : List (TEvent F G) :=
  hR1 p ++ [.squeeze, .absorb (.pt p.z_opening), .absorb (.pt p.zy_opening)]

/-- Transcript history at the second `random` draw in `add_proof`. -/
def hRnd2 (p : Proof F G) : List (TEvent F G) :=
  hRnd p ++ [.squeeze]

/-- Full characterization of `add_proof_core`: the batch entries pushed,
with every challenge written as `chal` of its explicit derivation
history, and the `z` value handed to the `sxy` closure. -/
theorem add_proof_core_eq [CommRing F] (v : MultiVerifier F G S)
    (chal : List (TEvent F G) → F)
    (sEval : F → Nat → List CEvent → F → F)
    (p : Proof F G) (inputs : List F) (sxy : F → F → Option F) :
    v.add_proof_core chal sEval p inputs sxy =
      ({ v with batch := { v.batch with
          openings := v.batch.openings ++
            [(p.zy_opening, chal (hRnd p), chal (hZ p) * chal (hY p)),
             (p.z_opening, chal (hRnd2 p), chal (hZ p))],
          commitments := v.batch.commitments ++ [(p.t, chal (hRnd2 p))],
          commitments_max_n := v.batch.commitments_max_n ++
            [(p.r, chal (hRnd p)), (p.r, chal (hRnd2 p) * chal (hR1 p))],
          opening_values := v.batch.opening_values ++
            [(p.rzy, chal (hRnd p)),
             ((p.rzy + (sxy (chal (hZ p)) (chal (hY p))).getD
                 (sEval (chal (hY p)) v.n v.circuit (chal (hZ p)))) * p.rz
               - kY v.n v.k_map (chal (hY p)) inputs, chal (hRnd2 p)),
             (p.rz, chal (hRnd2 p) * chal (hR1 p))] } },
       chal (hZ p)) := by
  simp [MultiVerifier.add_proof_core, Transcript.new, Transcript.commit_point,
    Transcript.commit_scalar, Transcript.get_challenge_scalar,
    Batch.add_opening, Batch.add_commitment, Batch.add_commitment_max_n,
    Batch.add_opening_value, hY, hZ, hR1, hRnd, hRnd2]

/-- Folding addition of mapped terms over a list equals the sum of the
mapped list. -/
theorem foldl_add_map [AddCommMonoid M] (f : α → M) :
    ∀ (l : List α) (a : M),
      l.foldl (fun acc x => acc + f x) a = a + (l.map f).sum
  | [], a => by simp
  | x :: l, a => by
    simp [foldl_add_map f l (a + f x), add_assoc]

/-- Looking up position `l₁.length + k` in `l₁ ++ l₂` finds position `k`
of `l₂`. -/
theorem get_append_add (l₂ : List α) (k : Nat) : ∀ l₁ : List α,
    (l₁ ++ l₂)[l₁.length + k]? = l₂[k]? := by
  intro l₁
  induction l₁ with
  | nil => simp
  | cons a l ih =>
    have h : (a :: l).length + k = (l.length + k) + 1 := by
      simp [List.length_cons]; omega
    rw [List.cons_append, h, List.getElem?_cons_succ, ih]

/-- Looking up position `l₁.length` in `l₁ ++ l₂` finds the head of `l₂`. -/
theorem get_append_zero (l₁ l₂ : List α) : (l₁ ++ l₂)[l₁.length]? = l₂[0]? := by
  have h := get_append_add l₂ 0 l₁
  simpa using h

/-- Looking up position `l₁.length + 1` in `l₁ ++ l₂` finds position 1 of
`l₂`. -/
theorem get_append_one (l₁ l₂ : List α) :
    (l₁ ++ l₂)[l₁.length + 1]? = l₂[1]? :=
  get_append_add l₂ 1 l₁

/-- Looking up position `l₁.length + 2` in `l₁ ++ l₂` finds position 2 of
`l₂`. -/
theorem get_append_two (l₁ l₂ : List α) :
    (l₁ ++ l₂)[l₁.length + 2]? = l₂[2]? :=
  get_append_add l₂ 2 l₁

/-- `kY` is the sum of `y^(exp + n) · input` over `k_map` zipped with the
one-wire-extended inputs. -/
theorem kY_eq_sum [CommRing F] (n : Nat) (k_map : List Nat) (y : F)
    (inputs : List F) :
    kY n k_map y inputs =
      ((k_map.zip ((1 : F) :: inputs)).map
        (fun pr => y ^ (pr.1 + n) * pr.2)).sum := by
  simp [kY, foldl_add_map]

/-- The counting backend fold of `MultiVerifier::new`, characterized:
`k_map` collects the `new_k_power` indices in order, `n` counts the
multiplication gates, `q` counts the linear constraints. -/
theorem preprocess_foldl (evs : List CEvent) : ∀ p : Preprocess,
    evs.foldl Preprocess.step p =
      ⟨p.k_map ++ evs.filterMap CEvent.kIdx, p.n + evs.countP CEvent.isMul,
       p.q + evs.countP CEvent.isLin⟩ := by
  induction evs with
  | nil => intro p; simp
  | cons e evs ih =>
    intro p
    cases e <;>
      simp [Preprocess.step, ih, CEvent.kIdx, CEvent.isMul, CEvent.isLin,
        List.countP_cons] <;> omega

/-- C7: `MultiVerifier::new` runs one counting synthesis pass; on success
the verifier's `k_map` is the sequence of k-power indices in discovery
order, `n` the number of multiplication-gate events, `q` the number of
linear-constraint events, and the `Batch` is built with size `n`; it
errs exactly when the circuit's synthesis errs. -/
theorem multiverifier_new_characterization
    (circuit : Except SynthesisError (List CEvent)) (srs : S) :
    (MultiVerifier.new circuit srs : Except SynthesisError (MultiVerifier F G S)) =
      circuit.map (fun evs =>
        ⟨evs, Batch.new srs (evs.countP CEvent.isMul),
         evs.filterMap CEvent.kIdx, evs.countP CEvent.isMul,
         evs.countP CEvent.isLin⟩) := by
  cases circuit with
  | error e => rfl
  | ok evs => simp [MultiVerifier.new, Except.map, preprocess_foldl]

/-- C3: `add_proof` starts from a fresh transcript, derives
`y`, `z`, `r1` in the absorb order recorded by `hY`/`hZ`/`hR1`, then after
absorbing the two opening proofs draws one challenge and pushes the
first claim: opening `proof.zy_opening` at `z·y`, `proof.r` as a
bounded-degree commitment, and claimed value `proof.rzy`, all with that
same coefficient. -/
theorem add_proof_first_claim [CommRing F] (v : MultiVerifier F G S)
    (chal : List (TEvent F G) → F) (sEval : F → Nat → List CEvent → F → F)
    (p : Proof F G) (inputs : List F) (sxy : F → F → Option F) :
    ((v.add_proof chal sEval p inputs sxy).batch.openings)[v.batch.openings.length]? =
        some (p.zy_opening, chal (hRnd p), chal (hZ p) * chal (hY p))
    ∧ ((v.add_proof chal sEval p inputs sxy).batch.commitments_max_n)[v.batch.commitments_max_n.length]? =
        some (p.r, chal (hRnd p))
    ∧ ((v.add_proof chal sEval p inputs sxy).batch.opening_values)[v.batch.opening_values.length]? =
        some (p.rzy, chal (hRnd p)) := by
  refine ⟨?_, ?_, ?_⟩ <;>
    simp only [MultiVerifier.add_proof, add_proof_core_eq, get_append_zero] <;>
    rfl

/-- C4: the claimed value `t(z,y)` registered by `add_proof`'s second
claim equals `(proof.rzy + s(z,y)) · proof.rz − k(y)`, where `k(y)` is
the sum of `y^(k_map[i]+n) · input_i` over the one-wire-extended inputs,
and `s(z,y)` is the closure's answer with the `SxEval` fallback exactly
when the closure returns none. -/
theorem add_proof_tzy_value [CommRing F] (v : MultiVerifier F G S)
    (chal : List (TEvent F G) → F) (sEval : F → Nat → List CEvent → F → F)
    (p : Proof F G) (inputs : List F) (sxy : F → F → Option F) :
    ((v.add_proof chal sEval p inputs sxy).batch.opening_values)[v.batch.opening_values.length + 1]? =
      some ((p.rzy + (sxy (chal (hZ p)) (chal (hY p))).getD
          (sEval (chal (hY p)) v.n v.circuit (chal (hZ p)))) * p.rz
        - ((v.k_map.zip ((1 : F) :: inputs)).map
            (fun pr => chal (hY p) ^ (pr.1 + v.n) * pr.2)).sum,
        chal (hRnd2 p)) := by
  simp only [MultiVerifier.add_proof, add_proof_core_eq, get_append_one,
    kY_eq_sum]
  rfl

/-- C5: `add_proof`'s second and third claims: one challenge opens
`proof.z_opening` at `z` and carries `t(z,y)` and `proof.t`
(full-degree); the same challenge scaled by `r1` carries `proof.rz` and
`proof.r` (bounded-degree). -/
theorem add_proof_second_third_claims [CommRing F] (v : MultiVerifier F G S)
    (chal : List (TEvent F G) → F) (sEval : F → Nat → List CEvent → F → F)
    (p : Proof F G) (inputs : List F) (sxy : F → F → Option F) :
    ((v.add_proof chal sEval p inputs sxy).batch.openings)[v.batch.openings.length + 1]? =
        some (p.z_opening, chal (hRnd2 p), chal (hZ p))
    ∧ (((v.add_proof chal sEval p inputs sxy).batch.opening_values)[v.batch.opening_values.length + 1]?).map
          (fun e => e.2) = some (chal (hRnd2 p))
    ∧ ((v.add_proof chal sEval p inputs sxy).batch.commitments)[v.batch.commitments.length]? =
        some (p.t, chal (hRnd2 p))
    ∧ ((v.add_proof chal sEval p inputs sxy).batch.opening_values)[v.batch.opening_values.length + 2]? =
        some (p.rz, chal (hRnd2 p) * chal (hR1 p))
    ∧ ((v.add_proof chal sEval p inputs sxy).batch.commitments_max_n)[v.batch.commitments_max_n.length + 1]? =
        some (p.r, chal (hRnd2 p) * chal (hR1 p)) := by
  refine ⟨?_, ?_, ?_, ?_, ?_⟩ <;>
    simp only [MultiVerifier.add_proof, add_proof_core_eq, get_append_zero,
      get_append_one, get_append_two] <;>
    rfl

/-- C6: `add_proof_with_advice` is exactly `add_proof` under the
constant-`some advice.szy` closure, followed by three registrations
sharing one challenge derived from a fresh transcript that absorbed
`advice.opening`, `advice.s`, `advice.szy`: opening `advice.opening` at
the `z` derived inside the wrapped call (namely `chal (hZ p)`),
`advice.s` as a full-degree commitment, and claimed value `advice.szy`. -/
theorem add_proof_with_advice_decomposition [CommRing F]
    (v : MultiVerifier F G S) (chal : List (TEvent F G) → F)
    (sEval : F → Nat → List CEvent → F → F)
    (p : Proof F G) (inputs : List F) (advice : SxyAdvice F G) :
    v.add_proof_with_advice chal sEval p inputs advice =
      { v.add_proof chal sEval p inputs (fun _ _ => some advice.szy) with
        batch :=
          (((v.add_proof chal sEval p inputs
                (fun _ _ => some advice.szy)).batch.add_opening
              advice.opening
              (chal [.absorb (.pt advice.opening), .absorb (.pt advice.s),
                .absorb (.sc advice.szy)])
              (chal (hZ p))).add_commitment advice.s
              (chal [.absorb (.pt advice.opening), .absorb (.pt advice.s),
                .absorb (.sc advice.szy)])).add_opening_value advice.szy
            (chal [.absorb (.pt advice.opening), .absorb (.pt advice.s),
              .absorb (.sc advice.szy)]) } := by
  simp only [MultiVerifier.add_proof_with_advice, MultiVerifier.add_proof,
    add_proof_core_eq, Transcript.new, Transcript.commit_point,
    Transcript.commit_scalar, Transcript.get_challenge_scalar]
  rfl

set_option maxHeartbeats 1000000 in
/-- C9: `add_proof`, `add_proof_with_advice` and `add_aggregate` leave
`circuit`, `k_map`, `n` and `q` unchanged; only the batch is updated. -/
theorem add_operations_frame [CommRing F] (v : MultiVerifier F G S)
    (chal : List (TEvent F G) → F) (sEval : F → Nat → List CEvent → F → F)
    (p : Proof F G) (inputs : List F) (sxy : F → F → Option F)
    (advice : SxyAdvice F G) (proofs : List (Proof F G × SxyAdvice F G))
    (agg : Aggregate F G) :
    ((v.add_proof chal sEval p inputs sxy).circuit = v.circuit
      ∧ (v.add_proof chal sEval p inputs sxy).k_map = v.k_map
      ∧ (v.add_proof chal sEval p inputs sxy).n = v.n
      ∧ (v.add_proof chal sEval p inputs sxy).q = v.q)
    ∧ ((v.add_proof_with_advice chal sEval p inputs advice).circuit = v.circuit
      ∧ (v.add_proof_with_advice chal sEval p inputs advice).k_map = v.k_map
      ∧ (v.add_proof_with_advice chal sEval p inputs advice).n = v.n
      ∧ (v.add_proof_with_advice chal sEval p inputs advice).q = v.q)
    ∧ ((v.add_aggregate chal sEval proofs agg).circuit = v.circuit
      ∧ (v.add_aggregate chal sEval proofs agg).k_map = v.k_map
      ∧ (v.add_aggregate chal sEval proofs agg).n = v.n
      ∧ (v.add_aggregate chal sEval proofs agg).q = v.q) := by
  refine ⟨⟨?_, ?_, ?_, ?_⟩, ⟨?_, ?_, ?_, ?_⟩, ⟨?_, ?_, ?_, ?_⟩⟩ <;>
    simp only [MultiVerifier.add_proof, MultiVerifier.add_proof_with_advice,
      MultiVerifier.add_aggregate, add_proof_core_eq]

/-- The running-transcript absorptions made by `add_aggregate`'s first
loop: each proof's advice commitment `sxyadvice.s`, in order. -/
def aggAbsorbS (proofs : List (Proof F G × SxyAdvice F G)) :
    List (TEvent F G) :=
  proofs.map fun pa => .absorb (.pt pa.2.s)

/-- Transcript history at the `w` draw in `add_aggregate`: after the `z`
draw, `aggregate.c` has been absorbed. -/
def aggHw (proofs : List (Proof F G × SxyAdvice F G))
    (agg : Aggregate F G) : List (TEvent F G) :=
  aggAbsorbS proofs ++ [.squeeze, .absorb (.pt agg.c)]

/-- Transcript history of the running transcript after the `w` draw in
`add_aggregate` — the state every per-claim clone is taken from. -/
def aggHr (proofs : List (Proof F G × SxyAdvice F G))
    (agg : Aggregate F G) : List (TEvent F G) :=
  aggHw proofs agg ++ [.squeeze]

/-- The per-proof `y` challenges of `add_aggregate`, each derived from an
isolated sub-transcript seeded with that proof's `r`. -/
def aggYs (chal : List (TEvent F G) → F)
    (proofs : List (Proof F G × SxyAdvice F G)) : List F :=
  proofs.map fun pa => chal [.absorb (.pt pa.1.r)]

/-- The expected value folded by `add_aggregate`'s final loop: the sum of
each `c_openings` entry's value component scaled by the proof-specific
challenge drawn from the running transcript (which advances by one
squeeze per proof). -/
def aggExpected [CommRing F] (chal : List (TEvent F G) → F) :
    List (TEvent F G) → List ((Proof F G × SxyAdvice F G) × (G × F)) → F
  | _, [] => 0
  | h, pc :: rest => pc.2.2 * chal h + aggExpected chal (h ++ [.squeeze]) rest

/-- The advice commitments registered by `add_aggregate`'s final loop:
each proof's `advice.s` with coefficient `r · random`, `r` being the
proof-specific challenge drawn from the running transcript. -/
def aggSComms [CommRing F] (chal : List (TEvent F G) → F) (random : F) :
    List (TEvent F G) → List ((Proof F G × SxyAdvice F G) × (G × F)) →
      List (G × F)
  | _, [] => []
  | h, pc :: rest =>
    (pc.1.2.s, chal h * random) :: aggSComms chal random (h ++ [.squeeze]) rest

/-- The first loop of `add_aggregate` absorbs the advice commitments in
order and collects the per-proof `y` challenges. -/
theorem aggStepY_foldl (chal : List (TEvent F G) → F) :
    ∀ (l : List (Proof F G × SxyAdvice F G)) (t : Transcript F G)
      (acc : List F),
      l.foldl (aggStepY chal) (t, acc) =
        (⟨t.history ++ aggAbsorbS l⟩, acc ++ aggYs chal l) := by
  intro l
  induction l with
  | nil => intro t acc; simp [aggAbsorbS, aggYs]
  | cons pa l ih =>
    intro t acc
    simp [aggStepY, ih, aggAbsorbS, aggYs, Transcript.commit_point,
      Transcript.new, Transcript.get_challenge_scalar, List.append_assoc]

/-- The `c_openings` loop of `add_aggregate` registers, for every zipped
`(opening, value), y` pair, the opening at `y`, the shared commitment,
and the claimed value, all with the one coefficient drawn from the clone
of the unchanging running transcript. -/
theorem aggStepC_foldl (chal : List (TEvent F G) → F) (c : G)
    (t : Transcript F G) :
    ∀ (l : List ((G × F) × F)) (b : Batch F G S),
      l.foldl (aggStepC chal c t) b =
        { b with
          openings := b.openings ++
            l.map (fun oy => (oy.1.1, chal t.history, oy.2)),
          commitments := b.commitments ++
            l.map (fun _ => (c, chal t.history)),
          opening_values := b.opening_values ++
            l.map (fun oy => (oy.1.2, chal t.history)) } := by
  intro l
  induction l with
  | nil => intro b; simp
  | cons oy l ih =>
    intro b
    simp [aggStepC, ih, Batch.add_opening, Batch.add_commitment,
      Batch.add_opening_value, Transcript.get_challenge_scalar,
      List.append_assoc]

/-- The final loop of `add_aggregate`, characterized: the running
transcript advances one squeeze per proof, the accumulated value is
`aggExpected`, and the registered commitments are `aggSComms`. -/
theorem aggStepS_foldl [CommRing F] (chal : List (TEvent F G) → F)
    (random : F) :
    ∀ (l : List ((Proof F G × SxyAdvice F G) × (G × F)))
      (h : List (TEvent F G)) (ev : F) (b : Batch F G S),
      l.foldl (aggStepS chal random) (⟨h⟩, ev, b) =
        (⟨h ++ List.replicate l.length .squeeze⟩,
         ev + aggExpected chal h l,
         { b with commitments := b.commitments ++ aggSComms chal random h l }) := by
  intro l
  induction l with
  | nil => intro h ev b; simp [aggExpected, aggSComms]
  | cons pc l ih =>
    intro h ev b
    simp [aggStepS, ih, aggExpected, aggSComms, Batch.add_commitment,
      Transcript.get_challenge_scalar, List.replicate_succ,
      List.append_assoc, add_assoc]

/-- Full characterization of the batch produced by `add_aggregate`. -/
theorem add_aggregate_eq [CommRing F] (v : MultiVerifier F G S)
    (chal : List (TEvent F G) → F) (sEval : F → Nat → List CEvent → F → F)
    (proofs : List (Proof F G × SxyAdvice F G)) (agg : Aggregate F G) :
    (v.add_aggregate chal sEval proofs agg).batch =
      { v.batch with
        openings := v.batch.openings
          ++ [(agg.opening, chal (aggHr proofs agg), chal (aggHw proofs agg))]
          ++ (agg.c_openings.zip (aggYs chal proofs)).map
              (fun oy => (oy.1.1, chal (aggHr proofs agg), oy.2))
          ++ [(agg.s_opening, chal (aggHr proofs agg),
              chal (aggAbsorbS proofs))],
        commitments := v.batch.commitments
          ++ [(agg.c, chal (aggHr proofs agg))]
          ++ (agg.c_openings.zip (aggYs chal proofs)).map
              (fun _ => (agg.c, chal (aggHr proofs agg)))
          ++ aggSComms chal (chal (aggHr proofs agg)) (aggHr proofs agg)
              (proofs.zip agg.c_openings),
        opening_values := v.batch.opening_values
          ++ [(sEval (chal (aggHw proofs agg)) v.n v.circuit
              (chal (aggAbsorbS proofs)), chal (aggHr proofs agg))]
          ++ (agg.c_openings.zip (aggYs chal proofs)).map
              (fun oy => (oy.1.2, chal (aggHr proofs agg)))
          ++ [(aggExpected chal (aggHr proofs agg)
              (proofs.zip agg.c_openings), chal (aggHr proofs agg))] } := by
  simp [MultiVerifier.add_aggregate, Transcript.new, aggStepY_foldl,
    aggStepC_foldl, aggStepS_foldl, Transcript.commit_point,
    Transcript.get_challenge_scalar, Batch.add_opening, Batch.add_commitment,
    Batch.add_opening_value, aggHw, aggHr, aggAbsorbS, List.append_assoc]

/-- C1 (amended): every opening claim pushed by `add_aggregate` — the
shared-point claim for `aggregate.opening`, each per-proof `c_openings`
claim, and the closing `s_opening` claim — carries one and the same
coefficient `chal (aggHr proofs agg)`: each is drawn from a clone of the
same post-`w` transcript state, so the value is shared, not a fresh
pairwise-distinct draw per claim. -/
theorem add_aggregate_shared_coefficient [CommRing F]
    (v : MultiVerifier F G S) (chal : List (TEvent F G) → F)
    (sEval : F → Nat → List CEvent → F → F)
    (proofs : List (Proof F G × SxyAdvice F G)) (agg : Aggregate F G) :
    (v.add_aggregate chal sEval proofs agg).batch.openings =
      v.batch.openings
        ++ [(agg.opening, chal (aggHr proofs agg), chal (aggHw proofs agg))]
        ++ (agg.c_openings.zip (aggYs chal proofs)).map
            (fun oy => (oy.1.1, chal (aggHr proofs agg), oy.2))
        ++ [(agg.s_opening, chal (aggHr proofs agg),
            chal (aggAbsorbS proofs))] := by
  rw [add_aggregate_eq]

/-- C2 (amended): the closing claim of `add_aggregate` opens
`aggregate.s_opening` at the shared `z` with coefficient `random
= chal (aggHr proofs agg)` and carries as value the sum, over the zip of
`proofs` with `aggregate.c_openings`, of each `c_openings` entry's value
component (not the advice's `szy`) scaled by the proof-specific challenge
drawn from the running transcript; each proof's `advice.s` is registered
as a full-degree commitment with that challenge times `random`. -/
theorem add_aggregate_closing_claim [CommRing F]
    (v : MultiVerifier F G S) (chal : List (TEvent F G) → F)
    (sEval : F → Nat → List CEvent → F → F)
    (proofs : List (Proof F G × SxyAdvice F G)) (agg : Aggregate F G) :
    ((v.add_aggregate chal sEval proofs agg).batch.opening_values).getLast? =
        some (aggExpected chal (aggHr proofs agg) (proofs.zip agg.c_openings),
          chal (aggHr proofs agg))
    ∧ ((v.add_aggregate chal sEval proofs agg).batch.openings).getLast? =
        some (agg.s_opening, chal (aggHr proofs agg), chal (aggAbsorbS proofs))
    ∧ (v.add_aggregate chal sEval proofs agg).batch.commitments =
        v.batch.commitments
          ++ [(agg.c, chal (aggHr proofs agg))]
          ++ (agg.c_openings.zip (aggYs chal proofs)).map
              (fun _ => (agg.c, chal (aggHr proofs agg)))
          ++ aggSComms chal (chal (aggHr proofs agg)) (aggHr proofs agg)
              (proofs.zip agg.c_openings) := by
  rw [add_aggregate_eq]
  exact ⟨List.getLast?_concat _, List.getLast?_concat _, rfl⟩

/-- A concrete challenge-derivation function over the integers: the
length of the transcript history. -/
def chalZ : List (TEvent Int Int) → Int := fun h => (h.length : Int)

/-- A concrete stand-in for the `SxEval` evaluator over the integers. -/
def sEvalZ : Int → Nat → List CEvent → Int → Int := fun _ _ _ _ => 0

/-- A concrete freshly constructed verifier over the integers (empty
circuit). -/
def v0 : MultiVerifier Int Int Unit := ⟨[], Batch.new () 0, [], 0, 0⟩

/-- A concrete verifier with two public-input k-powers and one gate. -/
def v1 : MultiVerifier Int Int Unit := ⟨[], Batch.new () 1, [0, 2], 1, 0⟩

/-- A concrete proof over the integers. -/
def p0 : Proof Int Int := ⟨10, 11, 2, 3, 12, 13⟩

/-- A concrete advice record over the integers; its `szy` is 3. -/
def a0 : SxyAdvice Int Int := ⟨20, 3, 21⟩

/-- A concrete aggregate over the integers; its single `c_openings`
entry has value 7, different from `a0.szy = 3`. -/
def agg0 : Aggregate Int Int := ⟨30, 31, [(32, 7)], 33⟩

/-- C1 (counterexample): at a concrete input, the coefficients of the
shared-point claim, of the single per-proof `c_openings` claim, and of
the closing `s_opening` claim pushed by `add_aggregate` are all 4 — one
reused value, contradicting the claim that they are pairwise distinct
draws. -/
theorem add_aggregate_coefficients_not_distinct :
    ((v0.add_aggregate chalZ sEvalZ [(p0, a0)] agg0).batch.openings.map
      (fun e => e.2.1)) = [4, 4, 4] := by
  decide

/-- C2 (counterexample): at a concrete input the closing claim of
`add_aggregate` registers value 28 = 7·4 (the `c_openings` entry value 7
scaled by the challenge 4), which differs from `a0.szy · 4 = 12`, the
value the claim (reading the folded operand as the advice's second
component) would predict. -/
theorem add_aggregate_expected_value_not_advice :
    ((v0.add_aggregate chalZ sEvalZ [(p0, a0)] agg0).batch.opening_values).getLast? =
        some (28, 4)
    ∧ ¬ (28 : Int) = a0.szy * 4 := by
  decide

/-- Replay a sequence of `commit_point`/`commit_scalar` calls on a
transcript. -/
def Transcript.feed (t : Transcript F G) (ds : List (TData F G)) :
    Transcript F G :=
  ds.foldl
    (fun acc d =>
      match d with
      | .pt g => acc.commit_point g
      | .sc x => acc.commit_scalar x) t

/-- The sequence of `k` successive challenge scalars drawn from a
transcript. -/
def Transcript.draws (chal : List (TEvent F G) → F) :
    Transcript F G → Nat → List F
  | _, 0 => []
  | t, k + 1 =>
    (t.get_challenge_scalar chal).1 ::
      Transcript.draws chal (t.get_challenge_scalar chal).2 k

/-- C8: two-run determinism — constructing two `MultiVerifier`s over the
same circuit (same synthesis event sequence) and SRS yields identical
`k_map`, `n`, `q`; and two fresh transcripts fed the identical sequence
of `commit_point`/`commit_scalar` calls produce identical
challenge-scalar sequences. -/
theorem determinism_two_runs (chal : List (TEvent F G) → F)
    (c1 c2 : Except SynthesisError (List CEvent)) (srs : S)
    (t1 t2 : Transcript F G) (ds : List (TData F G)) (k : Nat)
    (hc : c1 = c2) (h1 : t1 = Transcript.new) (h2 : t2 = Transcript.new) :
    ((MultiVerifier.new c1 srs : Except SynthesisError (MultiVerifier F G S)).map
        (fun mv => (mv.k_map, mv.n, mv.q)) =
      (MultiVerifier.new c2 srs : Except SynthesisError (MultiVerifier F G S)).map
        (fun mv => (mv.k_map, mv.n, mv.q)))
    ∧ (t1.feed ds).draws chal k = (t2.feed ds).draws chal k := by
  subst hc; subst h1; subst h2
  exact ⟨rfl, rfl⟩

/-- Witness for C8 at a concrete circuit, transcript and command list. -/
theorem determinism_two_runs_witness :
    ((MultiVerifier.new (Except.ok [CEvent.mul_gate]) () :
        Except SynthesisError (MultiVerifier Int Int Unit)).map
          (fun mv => (mv.k_map, mv.n, mv.q)) =
      (MultiVerifier.new (Except.ok [CEvent.mul_gate]) () :
        Except SynthesisError (MultiVerifier Int Int Unit)).map
          (fun mv => (mv.k_map, mv.n, mv.q)))
    ∧ ((Transcript.new : Transcript Int Int).feed [.pt 5]).draws chalZ 2 =
      ((Transcript.new : Transcript Int Int).feed [.pt 5]).draws chalZ 2 :=
  determinism_two_runs chalZ (Except.ok [CEvent.mul_gate])
    (Except.ok [CEvent.mul_gate]) () Transcript.new Transcript.new
    [.pt 5] 2 rfl rfl rfl

/-- Zipping is unaffected by truncating the left list to the right
list's length. -/
theorem zip_take_left : ∀ (l1 : List α) (l2 : List β),
    l1.zip l2 = (l1.take l2.length).zip l2
  | [], _ => by simp
  | _ :: _, [] => by simp
  | a :: l1, b :: l2 => by
    simp [List.zip_cons_cons, zip_take_left l1 l2]

/-- Zipping with an extended right list is unaffected when the left list
is no longer than the original right list. -/
theorem zip_of_le : ∀ (l1 : List α) (l2 l3 : List β),
    l1.length ≤ l2.length → l1.zip (l2 ++ l3) = l1.zip l2
  | [], _, _, _ => by simp
  | a :: l1, [], l3, h => by simp at h
  | a :: l1, b :: l2, l3, h => by
    simp only [List.cons_append, List.zip_cons_cons]
    rw [zip_of_le l1 l2 l3 (by simpa using h)]

/-- C10: the `k(y)` loop of `add_proof` runs over exactly
`min (k_map.length) (inputs.length + 1)` zipped terms, so the operation
is total on any inputs length: `k_map` entries beyond the supplied
inputs contribute nothing, and surplus inputs beyond `k_map.length − 1`
are silently ignored (the whole `add_proof` result is unchanged by
them). -/
theorem kY_length_robust [CommRing F] (v : MultiVerifier F G S)
    (chal : List (TEvent F G) → F) (sEval : F → Nat → List CEvent → F → F)
    (p : Proof F G) (sxy : F → F → Option F) (y : F)
    (inputs extra : List F) :
    (v.k_map.zip ((1 : F) :: inputs)).length =
        min v.k_map.length (inputs.length + 1)
    ∧ kY v.n v.k_map y inputs =
        kY v.n (v.k_map.take (inputs.length + 1)) y inputs
    ∧ (v.k_map.length ≤ inputs.length + 1 →
        v.add_proof chal sEval p (inputs ++ extra) sxy =
          v.add_proof chal sEval p inputs sxy) := by
  refine ⟨by simp, ?_, ?_⟩
  · simp only [kY]
    rw [zip_take_left v.k_map ((1 : F) :: inputs)]
    simp
  · intro h
    simp only [MultiVerifier.add_proof, add_proof_core_eq, kY]
    rw [show (1 : F) :: (inputs ++ extra) = ((1 : F) :: inputs) ++ extra
        from rfl,
      zip_of_le v.k_map ((1 : F) :: inputs) extra (by simpa using h)]

/-- Witness for C10 at a concrete verifier (two k-powers), one supplied
input and one surplus input. -/
theorem kY_length_robust_witness :
    (v1.k_map.zip ((1 : Int) :: [5])).length =
        min v1.k_map.length ([(5 : Int)].length + 1)
    ∧ kY v1.n v1.k_map (3 : Int) [5] =
        kY v1.n (v1.k_map.take ([(5 : Int)].length + 1)) 3 [5]
    ∧ v1.add_proof chalZ sEvalZ p0 ([5] ++ [9]) (fun _ _ => none) =
        v1.add_proof chalZ sEvalZ p0 [5] (fun _ _ => none) :=
  ⟨(kY_length_robust v1 chalZ sEvalZ p0 (fun _ _ => none) 3 [5] [9]).1,
   (kY_length_robust v1 chalZ sEvalZ p0 (fun _ _ => none) 3 [5] [9]).2.1,
   (kY_length_robust v1 chalZ sEvalZ p0 (fun _ _ => none) 3 [5] [9]).2.2
     (by decide)⟩
